import Mathlib

/-!
Verification of the word-substitution code implemented in `main.py`
(classes `DatasetReader`, `CryptAlgo`, `RandomCode`).

Modelling choices, each mirroring the source:
* a Python `str` is a `List Char` (`Str`);
* `str.split()` (no argument) is `pySplit`, splitting on the Unicode
  whitespace set and dropping empty pieces; `" ".join` is `joinSp`;
* a Python `dict` is an insertion-ordered association list (`dictGet`,
  `dictInsert`), and a `collections.Counter` is such a list with `Nat`
  values built by `bump`;
* `Counter.most_common(n)` is a stable sort by descending count followed
  by `take n` (`most_common`), matching CPython's documented
  `heapq.nlargest` semantics (equivalent to a stable
  `sorted(..., reverse=True)[:n]`, ties kept in insertion order);
* the in-place `random.shuffle(codeWords)` in `_init_from_dataset_reader`
  calls the process-global generator, which this program never seeds
  (the instance generator seeded with 42 is only used by the dead
  `_generate_code` path), so the shuffled list is modelled as an
  explicit parameter `codeWords`; the only property the shuffle
  guarantees is that `codeWords` is a permutation of `vocab_words`;
* a failed `assert` and the `ValueError` raised by unpacking `zip(*[])`
  are modelled by `Except CryptError`; the failing `assert` inside
  `decrypt` is modelled by `Option`;
* a pickle file is modelled by the dictionary `_save_to_pickle_file`
  serializes (`PickleDict`), since `pickle` round-trips it losslessly.
-/

namespace BertDecryption

/-- Python `str`, modelled as its list of characters. -/
abbrev Str := List Char

/-- The characters on which Python `str.split()` with no argument splits:
the whitespace set of `str.isspace`. -/
def pyIsSpace (c : Char) : Bool :=
  let n := c.toNat
  (9 ≤ n && n ≤ 13) || n == 32 || (28 ≤ n && n ≤ 31) || n == 133 ||
  n == 160 || n == 0x1680 || (0x2000 ≤ n && n ≤ 0x200A) || n == 0x2028 ||
  n == 0x2029 || n == 0x202F || n == 0x205F || n == 0x3000

/-- Tokenizer behind Python `str.split()`: `acc` holds the characters of
the token currently being read, in reverse; runs of whitespace yield no
empty tokens. -/
def pySplitAux : List Char → List Char → List Str
  | [], acc => if acc = [] then [] else [acc.reverse]
  | c :: cs, acc =>
    if pyIsSpace c then
      if acc = [] then pySplitAux cs [] else acc.reverse :: pySplitAux cs []
    else
      pySplitAux cs (c :: acc)

/-- Python `sentence.split()`. -/
def pySplit (s : Str) : List Str := pySplitAux s []

/-- Python `" ".join(xs)`. -/
def joinSp : List Str → Str
  | [] => []
  | [t] => t
  | t :: t2 :: ts => t ++ ' ' :: joinSp (t2 :: ts)

/-- Python `dict` lookup: `d[k]` when it succeeds, and `k in d` via
`Option.isSome`. The dict is an insertion-ordered association list. -/
def dictGet {β : Type} : List (Str × β) → Str → Option β
  | [], _ => none
  | p :: ps, k => if p.1 = k then some p.2 else dictGet ps k

/-- Python `d[k] = v`: overwrite in place when the key exists, otherwise
append at the end (dicts preserve insertion order). -/
def dictInsert {β : Type} (d : List (Str × β)) (k : Str) (v : β) :
    List (Str × β) :=
  if (dictGet d k).isSome then
    d.map (fun p => if p.1 = k then (k, v) else p)
  else d ++ [(k, v)]

/-- One step of `self.vocab[word] += 1` on a `collections.Counter`:
missing keys count as 0, and a new key is appended in insertion order. -/
def bump (acc : List (Str × Nat)) (w : Str) : List (Str × Nat) :=
  if (dictGet acc w).isSome then
    acc.map (fun p => if p.1 = w then (p.1, p.2 + 1) else p)
  else acc ++ [(w, 1)]

/-- The frequency table accumulated by the counting loop of
`_init_from_dataset_reader`. -/
def countWords (ws : List Str) : List (Str × Nat) := ws.foldl bump []

/-- Stable insertion of a pair into a list sorted by descending count:
the new pair goes before every pair of equal or smaller count. -/
def insertDesc (p : Str × Nat) : List (Str × Nat) → List (Str × Nat)
  | [] => [p]
  | q :: qs => if q.2 ≤ p.2 then p :: q :: qs else q :: insertDesc p qs

/-- Stable sort by descending count. -/
def sortDesc : List (Str × Nat) → List (Str × Nat)
  | [] => []
  | p :: ps => insertDesc p (sortDesc ps)

/-- `Counter.most_common(n)`: the `n` highest-count items, sorted by
descending count with ties kept in insertion order (CPython documents
`heapq.nlargest` as equivalent to a stable
`sorted(..., reverse=True)[:n]`). -/
def most_common (items : List (Str × Nat)) (n : Nat) : List (Str × Nat) :=
  (sortDesc items).take n

/-- `RandomCode.MAX_VOCAB_SIZE`. -/
def MAX_VOCAB_SIZE : Nat := 1000

/-- `DatasetReader.iterate_word()`: every line split on whitespace,
concatenated in order. -/
def iterate_word (lines : List Str) : List Str := (lines.map pySplit).flatten

/-- `self.vocab.most_common(self.MAX_VOCAB_SIZE)` computed from a corpus. -/
def vocabPairs (lines : List Str) : List (Str × Nat) :=
  most_common (countWords (iterate_word lines)) MAX_VOCAB_SIZE

/-- The `vocab_words` component of `zip(*pair_of_words_and_counts)`. -/
def vocabWordsOf (lines : List Str) : List Str :=
  (vocabPairs lines).map Prod.fst

/-- The code-assignment loop of `_init_from_dataset_reader`: `codeWords`
is `list(self.vocab_words)` after the in-place shuffle, so it has the
same length as `vocab_words` and the indexed loop is a fold over the
zip of the two lists. -/
def buildMaps (vw codeWords : List Str) :
    List (Str × Str) × List (Str × Str) :=
  (vw.zip codeWords).foldl
    (fun m p => (dictInsert m.1 p.1 p.2, dictInsert m.2 p.2 p.1)) ([], [])

/-- The state a `RandomCode` instance holds after construction (the
instance generator and `characters_choice` are omitted: they are used
only by the dead `_generate_code` path, never by encrypt/decrypt or
persistence). -/
structure RandomCode where
  vocab : List (Str × Nat)
  vocab_words : List Str
  vocab_counts : List Nat
  map_word_to_code : List (Str × Str)
  map_code_to_word : List (Str × Str)

/-- The state built by `RandomCode._init_from_dataset_reader` once the
unpacking `zip(*pair_of_words_and_counts)` has succeeded. `codeWords`
models the result of `random.shuffle` on a copy of `vocab_words`: the
shuffle uses the process-global, unseeded generator, so its outcome is
an arbitrary permutation supplied as a parameter. -/
def mkRandomCode (lines : List Str) (codeWords : List Str) : RandomCode :=
  { vocab := countWords (iterate_word lines)
    vocab_words := vocabWordsOf lines
    vocab_counts := (vocabPairs lines).map Prod.snd
    map_word_to_code := (buildMaps (vocabWordsOf lines) codeWords).1
    map_code_to_word := (buildMaps (vocabWordsOf lines) codeWords).2 }

/-- The exceptions the construction paths can raise: a failed `assert`
in `CryptAlgo.__init__`, the `ValueError` from unpacking `zip(*[])`,
and `FileNotFoundError` from opening a missing pickle file. -/
inductive CryptError where
  | assertionError
  | valueError
  | fileNotFound

/-- `RandomCode._init_from_dataset_reader`: when the corpus has no
tokens, `most_common` is empty and unpacking `zip(*[])` raises
`ValueError`; otherwise the full state is built. -/
def init_from_dataset_reader (lines codeWords : List Str) :
    Except CryptError RandomCode :=
  if vocabPairs lines = [] then .error .valueError
  else .ok (mkRandomCode lines codeWords)

/-- The dictionary `_save_to_pickle_file` pickles; `pickle` round-trips
it losslessly, so the file content is modelled by the dictionary
itself. -/
structure PickleDict where
  vocab : List (Str × Nat)
  vocab_words : List Str
  vocab_counts : List Nat
  map_word_to_code : List (Str × Str)
  map_code_to_word : List (Str × Str)

/-- `RandomCode._save_to_pickle_file`, as the value written to disk. -/
def save_to_pickle (rc : RandomCode) : PickleDict :=
  { vocab := rc.vocab
    vocab_words := rc.vocab_words
    vocab_counts := rc.vocab_counts
    map_word_to_code := rc.map_word_to_code
    map_code_to_word := rc.map_code_to_word }

/-- `RandomCode._init_from_pickle_file`, given the loaded dictionary:
all five fields are restored. -/
def init_from_pickle (d : PickleDict) : RandomCode :=
  { vocab := d.vocab
    vocab_words := d.vocab_words
    vocab_counts := d.vocab_counts
    map_word_to_code := d.map_word_to_code
    map_code_to_word := d.map_code_to_word }

/-- `CryptAlgo.__init__` as specialized by `RandomCode`. `fs` models the
file system consulted by the pickle-load path; a failed `assert` raises
`AssertionError`. Saving in the build path writes a file but does not
change the constructed state. -/
def construct (fs : Str → Option PickleDict) (use_dataset_reader : Bool)
    (dataset_reader : Option (List Str)) (save_pickle_file : Option Str)
    (codeWords : List Str) : Except CryptError RandomCode :=
  if use_dataset_reader then
    match dataset_reader with
    | none => .error .assertionError
    | some lines => init_from_dataset_reader lines codeWords
  else
    match dataset_reader, save_pickle_file with
    | none, some path =>
      match fs path with
      | none => .error .fileNotFound
      | some d => .ok (init_from_pickle d)
    | _, _ => .error .assertionError

/-- `RandomCode.encrypt`: tokens missing from `map_word_to_code` are
skipped (`continue`), the codes of the others are joined by single
spaces. -/
def encrypt (rc : RandomCode) (sentence : Str) : Str :=
  joinSp ((pySplit sentence).filterMap (dictGet rc.map_word_to_code))

/-- The decrypt loop: `none` models the `assert code in
self.map_code_to_word` failing, which aborts with no output. -/
def decryptTokens (m : List (Str × Str)) : List Str → Option (List Str)
  | [] => some []
  | c :: cs =>
    match dictGet m c with
    | none => none
    | some w => (decryptTokens m cs).map (fun ws => w :: ws)

/-- `RandomCode.decrypt`. -/
def decrypt (rc : RandomCode) (sentence : Str) : Option Str :=
  (decryptTokens rc.map_code_to_word (pySplit sentence)).map joinSp

/-- A text with whitespace runs collapsed to single spaces and
leading/trailing whitespace stripped (Python's
`" ".join(text.split())`). -/
def normalizeWs (s : Str) : Str := joinSp (pySplit s)

/-! ### Lemmas about the tokenizer -/

theorem pyIsSpace_space : pyIsSpace ' ' = true := by decide

theorem pySplitAux_mem : ∀ (s : List Char) (acc : List Char),
    (∀ c ∈ acc, pyIsSpace c = false) →
    ∀ t ∈ pySplitAux s acc, t ≠ [] ∧ ∀ c ∈ t, pyIsSpace c = false := by
  intro s
  induction s with
  | nil =>
    intro acc hacc t ht
    by_cases h : acc = []
    · simp [pySplitAux, h] at ht
    · simp [pySplitAux, h] at ht
      subst ht
      refine ⟨by simpa using h, ?_⟩
      intro c hc
      exact hacc c (by simpa using hc)
  | cons c cs ih =>
    intro acc hacc t ht
    by_cases hsp : pyIsSpace c
    · by_cases h : acc = []
      · rw [show pySplitAux (c :: cs) acc = pySplitAux cs [] from by
          simp [pySplitAux, hsp, h]] at ht
        exact ih [] (by simp) t ht
      · rw [show pySplitAux (c :: cs) acc = acc.reverse :: pySplitAux cs [] from by
          simp [pySplitAux, hsp, h]] at ht
        rcases List.mem_cons.mp ht with rfl | ht
        · refine ⟨by simpa using h, ?_⟩
          intro x hx
          exact hacc x (by simpa using hx)
        · exact ih [] (by simp) t ht
    · have hsp' : pyIsSpace c = false := by simpa using hsp
      rw [show pySplitAux (c :: cs) acc = pySplitAux cs (c :: acc) from by
        simp [pySplitAux, hsp']] at ht
      refine ih (c :: acc) ?_ t ht
      intro x hx
      rcases List.mem_cons.mp hx with rfl | hx
      · exact hsp'
      · exact hacc x hx

theorem pySplit_mem (s : Str) :
    ∀ t ∈ pySplit s, t ≠ [] ∧ ∀ c ∈ t, pyIsSpace c = false :=
  pySplitAux_mem s [] (by simp)

theorem pySplitAux_append : ∀ (t : List Char),
    (∀ c ∈ t, pyIsSpace c = false) →
    ∀ (s acc : List Char),
      pySplitAux (t ++ s) acc = pySplitAux s (t.reverse ++ acc) := by
  intro t
  induction t with
  | nil => intro _ s acc; simp
  | cons c t' ih =>
    intro h s acc
    have hc : pyIsSpace c = false := h c (List.mem_cons_self c t')
    have ht' : ∀ x ∈ t', pyIsSpace x = false :=
      fun x hx => h x (List.mem_cons_of_mem c hx)
    have step : pySplitAux (c :: (t' ++ s)) acc = pySplitAux (t' ++ s) (c :: acc) := by
      simp [pySplitAux, hc]
    rw [List.cons_append, step, ih ht' s (c :: acc)]
    simp

theorem pySplitAux_space (s acc : List Char) :
    pySplitAux (' ' :: s) acc =
      if acc = [] then pySplitAux s [] else acc.reverse :: pySplitAux s [] := by
  simp [pySplitAux, pyIsSpace_space]

theorem pySplit_joinSp : ∀ (ts : List Str),
    (∀ t ∈ ts, t ≠ [] ∧ ∀ c ∈ t, pyIsSpace c = false) →
    pySplit (joinSp ts) = ts := by
  intro ts
  induction ts with
  | nil => intro _; rfl
  | cons t rest ih =>
    intro h
    have ht := h t (List.mem_cons_self t rest)
    cases rest with
    | nil =>
      show pySplitAux (joinSp [t]) [] = [t]
      have hj : joinSp [t] = t := rfl
      calc pySplitAux (joinSp [t]) [] = pySplitAux (t ++ []) [] := by
            rw [hj, List.append_nil]
        _ = pySplitAux [] (t.reverse ++ []) := pySplitAux_append t ht.2 [] []
        _ = [t] := by
            rw [List.append_nil]
            simp [pySplitAux, ht.1]
    | cons t2 rest' =>
      have hrest : ∀ x ∈ t2 :: rest', x ≠ [] ∧ ∀ c ∈ x, pyIsSpace c = false :=
        fun x hx => h x (List.mem_cons_of_mem t hx)
      have hJ : joinSp (t :: t2 :: rest') = t ++ ' ' :: joinSp (t2 :: rest') := rfl
      show pySplitAux (joinSp (t :: t2 :: rest')) [] = t :: t2 :: rest'
      rw [hJ, pySplitAux_append t ht.2, List.append_nil, pySplitAux_space,
        if_neg (by simpa using ht.1), List.reverse_reverse]
      exact congrArg (t :: ·) (ih hrest)

theorem joinSp_ne_nil (t : Str) (ts : List Str) (h : t ≠ []) :
    joinSp (t :: ts) ≠ [] := by
  cases ts with
  | nil => exact h
  | cons t2 r =>
    show t ++ ' ' :: joinSp (t2 :: r) ≠ []
    simp

theorem head?_joinSp (ts : List Str) (h : ∀ t ∈ ts, t ≠ []) :
    ∀ c, (joinSp ts).head? = some c → ∃ t ∈ ts, c ∈ t := by
  cases ts with
  | nil => intro c hc; simp [joinSp] at hc
  | cons t rest =>
    intro c hc
    have ht : t ≠ [] := h t (List.mem_cons_self t rest)
    obtain ⟨c0, t', rfl⟩ : ∃ c0 t', t = c0 :: t' := by
      cases t with
      | nil => exact absurd rfl ht
      | cons a b => exact ⟨a, b, rfl⟩
    have hc0 : (joinSp ((c0 :: t') :: rest)).head? = some c0 := by
      cases rest with
      | nil => rfl
      | cons t2 r => rfl
    rw [hc0] at hc
    injection hc with hc
    subst hc
    exact ⟨c0 :: t', List.mem_cons_self _ _, List.mem_cons_self _ _⟩

theorem getLast?_mem_list : ∀ (l : List Char) (c : Char), l.getLast? = some c → c ∈ l := by
  intro l
  induction l with
  | nil => intro c hc; simp at hc
  | cons a l' ih =>
    intro c hc
    cases l' with
    | nil =>
      have : a = c := by simpa using hc
      simp [this]
    | cons b l'' =>
      rw [List.getLast?_cons_cons] at hc
      exact List.mem_cons_of_mem a (ih c hc)

theorem getLast?_joinSp : ∀ (ts : List Str), (∀ t ∈ ts, t ≠ []) →
    ∀ c, (joinSp ts).getLast? = some c → ∃ t ∈ ts, c ∈ t := by
  intro ts
  induction ts with
  | nil => intro _ c hc; simp [joinSp] at hc
  | cons t rest ih =>
    intro h c hc
    cases rest with
    | nil =>
      have hj : joinSp [t] = t := rfl
      rw [hj] at hc
      exact ⟨t, List.mem_cons_self t [], getLast?_mem_list t c hc⟩
    | cons t2 r =>
      have hrest : ∀ x ∈ t2 :: r, x ≠ [] := fun x hx => h x (List.mem_cons_of_mem t hx)
      have hJne : joinSp (t2 :: r) ≠ [] :=
        joinSp_ne_nil t2 r (h t2 (List.mem_cons_of_mem t (List.mem_cons_self t2 r)))
      have hJ : joinSp (t :: t2 :: r) = t ++ ' ' :: joinSp (t2 :: r) := rfl
      rw [hJ, List.getLast?_append] at hc
      obtain ⟨j, J', hJe⟩ : ∃ j J', joinSp (t2 :: r) = j :: J' := by
        cases hJx : joinSp (t2 :: r) with
        | nil => exact absurd hJx hJne
        | cons a b => exact ⟨a, b, rfl⟩
      rw [hJe, List.getLast?_cons_cons] at hc
      have hsome : (j :: J').getLast? = some c := by
        cases hx : (j :: J').getLast? with
        | none => simp at hx
        | some x =>
          rw [hx] at hc
          simpa using hc
      have : (joinSp (t2 :: r)).getLast? = some c := by rw [hJe]; exact hsome
      rcases ih hrest c this with ⟨u, hu, hcu⟩
      exact ⟨u, List.mem_cons_of_mem t hu, hcu⟩

/-! ### Lemmas about dictionaries -/

theorem dictGet_mem {β : Type} : ∀ (d : List (Str × β)) (k : Str) (v : β),
    dictGet d k = some v → (k, v) ∈ d := by
  intro d
  induction d with
  | nil => intro k v h; simp [dictGet] at h
  | cons p ps ih =>
    intro k v h
    by_cases hk : p.1 = k
    · rw [dictGet, if_pos hk] at h
      injection h with h
      have : p = (k, v) := by
        cases p with
        | mk a b =>
          simp only at hk h
          rw [hk, h]
      rw [← this]
      exact List.mem_cons_self p ps
    · rw [dictGet, if_neg hk] at h
      exact List.mem_cons_of_mem p (ih k v h)

theorem mem_dictGet {β : Type} : ∀ (d : List (Str × β)),
    (d.map Prod.fst).Nodup → ∀ (k : Str) (v : β),
    (k, v) ∈ d → dictGet d k = some v := by
  intro d
  induction d with
  | nil => intro _ k v h; simp at h
  | cons p ps ih =>
    intro hnd k v h
    rw [List.map_cons] at hnd
    rcases List.mem_cons.mp h with h | h
    · rw [dictGet, if_pos (by rw [← h])]
      rw [← h]
    · have hk : p.1 ≠ k := by
        intro he
        have : k ∈ ps.map Prod.fst :=
          List.mem_map.mpr ⟨(k, v), h, rfl⟩
        have := (List.nodup_cons.mp hnd).1
        exact this (he ▸ ‹k ∈ ps.map Prod.fst›)
      rw [dictGet, if_neg hk]
      exact ih (List.nodup_cons.mp hnd).2 k v h

theorem dictGet_eq_none {β : Type} : ∀ (d : List (Str × β)) (k : Str),
    dictGet d k = none ↔ k ∉ d.map Prod.fst := by
  intro d
  induction d with
  | nil =>
    intro k
    constructor
    · intro _ h
      exact absurd h (List.not_mem_nil k)
    · intro _
      rfl
  | cons p ps ih =>
    intro k
    rw [List.map_cons]
    by_cases hk : p.1 = k
    · rw [dictGet, if_pos hk]
      constructor
      · intro h
        exact Option.noConfusion h
      · intro h
        exact absurd (List.mem_cons.mpr (Or.inl hk.symm)) h
    · rw [dictGet, if_neg hk, ih k]
      constructor
      · intro h hmem
        rcases List.mem_cons.mp hmem with h1 | h1
        · exact hk h1.symm
        · exact h h1
      · intro h hmem
        exact h (List.mem_cons_of_mem _ hmem)

theorem dictGet_append {β : Type} : ∀ (d e : List (Str × β)) (k : Str),
    dictGet (d ++ e) k = (dictGet d k).or (dictGet e k) := by
  intro d
  induction d with
  | nil =>
    intro e k
    rw [List.nil_append]
    rfl
  | cons p ps ih =>
    intro e k
    rw [List.cons_append]
    by_cases hk : p.1 = k
    · rw [dictGet, if_pos hk, dictGet, if_pos hk, Option.or_some]
    · rw [dictGet, if_neg hk, dictGet, if_neg hk, ih e k]

theorem dictInsert_fresh {β : Type} (d : List (Str × β)) (k : Str) (v : β)
    (h : dictGet d k = none) : dictInsert d k v = d ++ [(k, v)] := by
  rw [dictInsert, h]
  rfl

theorem foldl_dictInsert {β : Type} : ∀ (ps : List (Str × β)) (d : List (Str × β)),
    (ps.map Prod.fst).Nodup → (∀ k ∈ ps.map Prod.fst, dictGet d k = none) →
    ps.foldl (fun m p => dictInsert m p.1 p.2) d = d ++ ps := by
  intro ps
  induction ps with
  | nil =>
    intro d _ _
    rw [List.foldl_nil, List.append_nil]
  | cons p ps ih =>
    intro d hnd hfresh
    rw [List.map_cons] at hnd
    have hnd' := List.nodup_cons.mp hnd
    have hp : dictGet d p.1 = none :=
      hfresh p.1 (by rw [List.map_cons]; exact List.mem_cons_self _ _)
    have step : dictInsert d p.1 p.2 = d ++ [p] := by
      rw [dictInsert_fresh d p.1 p.2 hp]
    show List.foldl (fun m q => dictInsert m q.1 q.2) (dictInsert d p.1 p.2) ps
        = d ++ (p :: ps)
    rw [step, ih (d ++ [p]) hnd'.2 ?_, List.append_assoc]
    · rfl
    · intro k hk
      have h1 : dictGet d k = none := hfresh k (by rw [List.map_cons]; exact List.mem_cons_of_mem _ hk)
      have h2 : dictGet [p] k = none := by
        rw [dictGet_eq_none]
        intro hmem
        simp at hmem
        exact hnd'.1 (hmem ▸ hk)
      rw [dictGet_append, h1, h2]
      rfl

theorem foldl_prod {α β γ : Type} (f : α → γ → α) (g : β → γ → β) :
    ∀ (l : List γ) (a : α) (b : β),
      l.foldl (fun m p => (f m.1 p, g m.2 p)) (a, b) = (l.foldl f a, l.foldl g b) := by
  intro l
  induction l with
  | nil => intro a b; rfl
  | cons x xs ih =>
    intro a b
    show xs.foldl _ (f a x, g b x) = _
    rw [ih (f a x) (g b x)]
    rfl

theorem buildMaps_eq (vw cw : List Str) (h1 : vw.Nodup) (h2 : cw.Nodup)
    (hl : vw.length = cw.length) :
    buildMaps vw cw = (vw.zip cw, cw.zip vw) := by
  have hfst : (vw.zip cw).map Prod.fst = vw := List.map_fst_zip vw cw (le_of_eq hl)
  have e1 : (vw.zip cw).foldl (fun d p => dictInsert d p.1 p.2) [] = vw.zip cw := by
    have := foldl_dictInsert (vw.zip cw) [] (by rw [hfst]; exact h1)
      (fun k _ => rfl)
    simpa using this
  have hswap : (vw.zip cw).map Prod.swap = cw.zip vw := List.zip_swap vw cw
  have hfst2 : (cw.zip vw).map Prod.fst = cw := List.map_fst_zip cw vw (le_of_eq hl.symm)
  have e2 : (vw.zip cw).foldl (fun d p => dictInsert d p.2 p.1) [] = cw.zip vw := by
    have hmap : ((vw.zip cw).map Prod.swap).foldl (fun d q => dictInsert d q.1 q.2) []
        = (vw.zip cw).foldl (fun d p => dictInsert d p.2 p.1) [] := by
      rw [List.foldl_map]
      rfl
    rw [← hmap, hswap]
    have := foldl_dictInsert (cw.zip vw) [] (by rw [hfst2]; exact h2)
      (fun k _ => rfl)
    simpa using this
  show (vw.zip cw).foldl
      (fun m p => (dictInsert m.1 p.1 p.2, dictInsert m.2 p.2 p.1)) ([], [])
      = (vw.zip cw, cw.zip vw)
  rw [foldl_prod (fun d (p : Str × Str) => dictInsert d p.1 p.2)
    (fun d (p : Str × Str) => dictInsert d p.2 p.1) (vw.zip cw) [] []]
  rw [e1, e2]

theorem dictGet_zip_inv : ∀ (vw cw : List Str), cw.Nodup → vw.length = cw.length →
    ∀ (w c : Str), dictGet (vw.zip cw) w = some c →
    dictGet (cw.zip vw) c = some w := by
  intro vw
  induction vw with
  | nil => intro cw _ _ w c h; simp [dictGet] at h
  | cons v vs ih =>
    intro cw hnd hl w c h
    cases cw with
    | nil => simp at hl
    | cons c' cs =>
      have hl' : vs.length = cs.length := by simpa using hl
      have hnd' := List.nodup_cons.mp hnd
      by_cases hv : v = w
      · rw [show (v :: vs).zip (c' :: cs) = (v, c') :: vs.zip cs from rfl,
          dictGet, if_pos hv] at h
        injection h with h
        subst h
        rw [show (c' :: cs).zip (v :: vs) = (c', v) :: cs.zip vs from rfl,
          dictGet, if_pos rfl]
        rw [hv]
      · rw [show (v :: vs).zip (c' :: cs) = (v, c') :: vs.zip cs from rfl,
          dictGet, if_neg hv] at h
        have hmem : (w, c) ∈ vs.zip cs := dictGet_mem (vs.zip cs) w c h
        have hc : c ∈ cs := (List.of_mem_zip hmem).2
        have hne : c' ≠ c := fun he => hnd'.1 (he ▸ hc)
        rw [show (c' :: cs).zip (v :: vs) = (c', v) :: cs.zip vs from rfl,
          dictGet, if_neg hne]
        exact ih cs hnd'.2 hl' w c h

/-! ### Lemmas about the frequency table -/

theorem bump_keys (acc : List (Str × Nat)) (w : Str) :
    (bump acc w).map Prod.fst =
      if (dictGet acc w).isSome then acc.map Prod.fst
      else acc.map Prod.fst ++ [w] := by
  by_cases h : (dictGet acc w).isSome
  · rw [bump, if_pos h, if_pos h, List.map_map]
    apply List.map_congr_left
    intro p _
    by_cases hp : p.1 = w <;> simp [hp]
  · rw [bump, if_neg h, if_neg h]
    simp

theorem countWords_aux_keys_nodup : ∀ (ws : List Str) (acc : List (Str × Nat)),
    (acc.map Prod.fst).Nodup → ((ws.foldl bump acc).map Prod.fst).Nodup := by
  intro ws
  induction ws with
  | nil => intro acc h; exact h
  | cons w ws ih =>
    intro acc h
    refine ih (bump acc w) ?_
    rw [bump_keys]
    by_cases hw : (dictGet acc w).isSome
    · rw [if_pos hw]; exact h
    · rw [if_neg hw]
      have hwn : w ∉ acc.map Prod.fst :=
        (dictGet_eq_none acc w).mp (Option.not_isSome_iff_eq_none.mp hw)
      simp [List.nodup_append, h, hwn]

theorem countWords_keys_nodup (ws : List Str) :
    ((countWords ws).map Prod.fst).Nodup :=
  countWords_aux_keys_nodup ws [] (by simp)

theorem countWords_aux_keys_sub : ∀ (ws : List Str) (acc : List (Str × Nat)) (k : Str),
    k ∈ (ws.foldl bump acc).map Prod.fst → k ∈ acc.map Prod.fst ∨ k ∈ ws := by
  intro ws
  induction ws with
  | nil => intro acc k h; exact Or.inl h
  | cons w ws ih =>
    intro acc k h
    rcases ih (bump acc w) k h with h' | h'
    · rw [bump_keys] at h'
      by_cases hw : (dictGet acc w).isSome
      · rw [if_pos hw] at h'
        exact Or.inl h'
      · rw [if_neg hw] at h'
        rcases List.mem_append.mp h' with h'' | h''
        · exact Or.inl h''
        · have : k = w := by simpa using h''
          exact Or.inr (this ▸ List.mem_cons_self w ws)
    · exact Or.inr (List.mem_cons_of_mem w h')

theorem countWords_keys_sub (ws : List Str) :
    ∀ k ∈ (countWords ws).map Prod.fst, k ∈ ws := by
  intro k h
  rcases countWords_aux_keys_sub ws [] k h with h' | h'
  · simp at h'
  · exact h'

theorem bump_length (acc : List (Str × Nat)) (w : Str) :
    acc.length ≤ (bump acc w).length := by
  by_cases h : (dictGet acc w).isSome <;> simp [bump, h]

theorem countWords_aux_length : ∀ (ws : List Str) (acc : List (Str × Nat)),
    acc.length ≤ (ws.foldl bump acc).length := by
  intro ws
  induction ws with
  | nil => intro acc; exact le_refl _
  | cons w ws ih =>
    intro acc
    exact le_trans (bump_length acc w) (ih (bump acc w))

theorem countWords_length_pos (w : Str) (ws : List Str) :
    0 < (countWords (w :: ws)).length := by
  have h0 : bump [] w = [(w, 1)] := rfl
  have h1 : (1 : Nat) ≤ (ws.foldl bump [(w, 1)]).length := by
    simpa using countWords_aux_length ws [(w, 1)]
  calc 0 < 1 := Nat.one_pos
    _ ≤ (ws.foldl bump [(w, 1)]).length := h1
    _ = (countWords (w :: ws)).length := by rw [countWords, List.foldl_cons, h0]

/-! ### Lemmas about the stable descending sort -/

theorem perm_insertDesc (p : Str × Nat) :
    ∀ (l : List (Str × Nat)), List.Perm (insertDesc p l) (p :: l) := by
  intro l
  induction l with
  | nil => exact List.Perm.refl [p]
  | cons q qs ih =>
    by_cases h : q.2 ≤ p.2
    · rw [insertDesc, if_pos h]
    · rw [insertDesc, if_neg h]
      exact (ih.cons q).trans (List.Perm.swap p q qs)

theorem perm_sortDesc : ∀ (l : List (Str × Nat)), List.Perm (sortDesc l) l := by
  intro l
  induction l with
  | nil => exact List.Perm.refl []
  | cons p ps ih => exact (perm_insertDesc p (sortDesc ps)).trans (ih.cons p)

theorem sorted_insertDesc (p : Str × Nat) :
    ∀ (l : List (Str × Nat)), l.Pairwise (fun a b => b.2 ≤ a.2) →
    (insertDesc p l).Pairwise (fun a b => b.2 ≤ a.2) := by
  intro l
  induction l with
  | nil => intro _; simp [insertDesc]
  | cons q qs ih =>
    intro h
    rcases List.pairwise_cons.mp h with ⟨hq, hqs⟩
    by_cases hle : q.2 ≤ p.2
    · rw [insertDesc, if_pos hle]
      refine List.pairwise_cons.mpr ⟨?_, h⟩
      intro x hx
      rcases List.mem_cons.mp hx with rfl | hx
      · exact hle
      · exact le_trans (hq x hx) hle
    · have hlt : p.2 < q.2 := Nat.lt_of_not_le hle
      rw [insertDesc, if_neg hle]
      refine List.pairwise_cons.mpr ⟨?_, ih hqs⟩
      intro x hx
      have hx' : x ∈ p :: qs := (perm_insertDesc p qs).mem_iff.mp hx
      rcases List.mem_cons.mp hx' with rfl | hx'
      · exact Nat.le_of_lt hlt
      · exact hq x hx'

theorem sorted_sortDesc : ∀ (l : List (Str × Nat)),
    (sortDesc l).Pairwise (fun a b => b.2 ≤ a.2) := by
  intro l
  induction l with
  | nil => simp [sortDesc]
  | cons p ps ih => exact sorted_insertDesc p (sortDesc ps) ih

theorem filter_insertDesc (p : Str × Nat) (n : Nat) :
    ∀ (l : List (Str × Nat)),
    (insertDesc p l).filter (fun q => q.2 == n) =
      if p.2 == n then p :: l.filter (fun q => q.2 == n)
      else l.filter (fun q => q.2 == n) := by
  intro l
  induction l with
  | nil =>
    by_cases h : p.2 == n <;> simp [insertDesc, List.filter, h]
  | cons q qs ih =>
    by_cases hle : q.2 ≤ p.2
    · rw [insertDesc, if_pos hle]
      by_cases hp : p.2 == n <;> simp [List.filter_cons, hp]
    · have hlt : p.2 < q.2 := Nat.lt_of_not_le hle
      rw [insertDesc, if_neg hle]
      by_cases hp : p.2 = n
      · have hq : (q.2 == n) = false := by
          simp only [beq_eq_false_iff_ne]
          omega
        simp [List.filter_cons, ih, hq, hp]
      · have hp' : (p.2 == n) = false := by simp [hp]
        simp [List.filter_cons, ih, hp']

theorem filter_sortDesc (n : Nat) : ∀ (l : List (Str × Nat)),
    (sortDesc l).filter (fun q => q.2 == n) = l.filter (fun q => q.2 == n) := by
  intro l
  induction l with
  | nil => rfl
  | cons p ps ih =>
    show (insertDesc p (sortDesc ps)).filter _ = _
    rw [filter_insertDesc, ih, List.filter_cons]

/-! ### Lemmas about the constructed vocabulary and mappings -/

theorem vocabWords_take (lines : List Str) :
    vocabWordsOf lines =
      ((sortDesc (countWords (iterate_word lines))).map Prod.fst).take
        MAX_VOCAB_SIZE := by
  rw [vocabWordsOf, vocabPairs, most_common, List.map_take]

theorem vocabWords_nodup (lines : List Str) : (vocabWordsOf lines).Nodup := by
  have h1 : ((countWords (iterate_word lines)).map Prod.fst).Nodup :=
    countWords_keys_nodup _
  have h2 : ((sortDesc (countWords (iterate_word lines))).map Prod.fst).Nodup :=
    (((perm_sortDesc (countWords (iterate_word lines))).map Prod.fst).nodup_iff).mpr h1
  rw [vocabWords_take]
  exact (List.take_sublist _ _).nodup h2

theorem vocabWords_mem_tokens (lines : List Str) :
    ∀ w ∈ vocabWordsOf lines, w ∈ iterate_word lines := by
  intro w hw
  rw [vocabWords_take] at hw
  have hw' : w ∈ (sortDesc (countWords (iterate_word lines))).map Prod.fst :=
    List.mem_of_mem_take hw
  have hw'' : w ∈ (countWords (iterate_word lines)).map Prod.fst :=
    ((perm_sortDesc (countWords (iterate_word lines))).map Prod.fst).mem_iff.mp hw'
  exact countWords_keys_sub _ w hw''

theorem token_props (lines : List Str) :
    ∀ w ∈ iterate_word lines, w ≠ [] ∧ ∀ c ∈ w, pyIsSpace c = false := by
  intro w hw
  rw [iterate_word] at hw
  rcases List.mem_flatten.mp hw with ⟨ts, hts, hw⟩
  rcases List.mem_map.mp hts with ⟨line, _, rfl⟩
  exact pySplit_mem line w hw

theorem vocabWords_props (lines : List Str) :
    ∀ w ∈ vocabWordsOf lines, w ≠ [] ∧ ∀ c ∈ w, pyIsSpace c = false :=
  fun w hw => token_props lines w (vocabWords_mem_tokens lines w hw)

theorem mk_maps (lines cw : List Str) (hperm : List.Perm cw (vocabWordsOf lines)) :
    (mkRandomCode lines cw).map_word_to_code = (vocabWordsOf lines).zip cw ∧
    (mkRandomCode lines cw).map_code_to_word = cw.zip (vocabWordsOf lines) := by
  have h1 := vocabWords_nodup lines
  have h2 : cw.Nodup := (hperm.nodup_iff).mpr h1
  have hl : (vocabWordsOf lines).length = cw.length := (hperm.length_eq).symm
  have hb := buildMaps_eq (vocabWordsOf lines) cw h1 h2 hl
  constructor
  · show (buildMaps (vocabWordsOf lines) cw).1 = _
    rw [hb]
  · show (buildMaps (vocabWordsOf lines) cw).2 = _
    rw [hb]

theorem encrypt_code_props (lines cw : List Str)
    (hperm : List.Perm cw (vocabWordsOf lines)) (text : Str) :
    ∀ c ∈ (pySplit text).filterMap (dictGet (mkRandomCode lines cw).map_word_to_code),
      c ≠ [] ∧ ∀ x ∈ c, pyIsSpace x = false := by
  intro c hc
  rcases List.mem_filterMap.mp hc with ⟨t, _, ht⟩
  rw [(mk_maps lines cw hperm).1] at ht
  have hmem := dictGet_mem _ _ _ ht
  have hcw : c ∈ cw := (List.of_mem_zip hmem).2
  exact vocabWords_props lines c (hperm.mem_iff.mp hcw)

theorem filterMap_forall₂ {α β : Type} (f : α → Option β) :
    ∀ (l : List α), (∀ a ∈ l, (f a).isSome) →
      List.Forall₂ (fun a b => f a = some b) l (l.filterMap f) := by
  intro l
  induction l with
  | nil => intro _; exact List.Forall₂.nil
  | cons a l ih =>
    intro h
    rcases Option.isSome_iff_exists.mp (h a (List.mem_cons_self a l)) with ⟨b, hb⟩
    rw [List.filterMap_cons, hb]
    exact List.Forall₂.cons hb (ih (fun x hx => h x (List.mem_cons_of_mem a hx)))

theorem decryptTokens_forall₂ (m : List (Str × Str)) (cs ws : List Str)
    (h : List.Forall₂ (fun c w => dictGet m c = some w) cs ws) :
    decryptTokens m cs = some ws := by
  induction h with
  | nil => rfl
  | cons hcw _ ih =>
    rw [decryptTokens, hcw, ih]
    rfl

theorem decryptTokens_none_iff (m : List (Str × Str)) :
    ∀ (cs : List Str), decryptTokens m cs = none ↔ ∃ c ∈ cs, dictGet m c = none := by
  intro cs
  induction cs with
  | nil => simp [decryptTokens]
  | cons c cs ih =>
    cases hc : dictGet m c with
    | none => simp [decryptTokens, hc]
    | some w => simp [decryptTokens, hc, ih]

theorem vocabPairs_ne_nil (lines : List Str) (hne : iterate_word lines ≠ []) :
    vocabPairs lines ≠ [] := by
  obtain ⟨w, ws, hw⟩ : ∃ w ws, iterate_word lines = w :: ws := by
    cases h : iterate_word lines with
    | nil => exact absurd h hne
    | cons a b => exact ⟨a, b, rfl⟩
  have hpos : 0 < (countWords (iterate_word lines)).length := by
    rw [hw]
    exact countWords_length_pos w ws
  have hsort : 0 < (sortDesc (countWords (iterate_word lines))).length := by
    rw [(perm_sortDesc (countWords (iterate_word lines))).length_eq]
    exact hpos
  have : 0 < (vocabPairs lines).length := by
    rw [vocabPairs, most_common, List.length_take]
    exact lt_min (by rw [MAX_VOCAB_SIZE]; omega) hsort
  intro h
  rw [h] at this
  exact absurd this (by simp)

/-! ### Auxiliary counting lemma for encrypt -/

theorem length_filterMap_add {α β : Type} (f : α → Option β) :
    ∀ (l : List α),
      (l.filterMap f).length + l.countP (fun a => !(f a).isSome) = l.length := by
  intro l
  induction l with
  | nil => rfl
  | cons a l ih =>
    rw [List.filterMap_cons, List.countP_cons]
    cases ha : f a with
    | none =>
      simp [ha] at ih ⊢
      omega
    | some b =>
      simp [ha] at ih ⊢
      omega

theorem zip_map_fst_snd {α β : Type} : ∀ (l : List (α × β)),
    (l.map Prod.fst).zip (l.map Prod.snd) = l := by
  intro l
  induction l with
  | nil => rfl
  | cons p ps ih =>
    show (p.1, p.2) :: ((ps.map Prod.fst).zip (ps.map Prod.snd)) = p :: ps
    rw [ih]

/-! ### Concrete test data for the witnesses -/

/-- A one-line corpus reading `"a b a"`; its vocabulary is `[a, b]`
(word `a` has count 2, word `b` count 1). -/
def exLines : List Str := [['a', ' ', 'b', ' ', 'a']]

/-- One possible outcome of the global shuffle on the vocabulary of
`exLines`: the swap permutation `[b, a]`. -/
def exCW : List Str := [['b'], ['a']]

/-! ### The claims -/

/-- C1: for every text whose whitespace-delimited tokens are all keys of
`map_word_to_code`, `decrypt (encrypt text)` equals the text with runs of
whitespace collapsed to single spaces and leading/trailing whitespace
stripped. -/
theorem claim_C1 (lines cw : List Str) (text : Str)
    (hperm : List.Perm cw (vocabWordsOf lines))
    (htok : ∀ t ∈ pySplit text,
      (dictGet (mkRandomCode lines cw).map_word_to_code t).isSome) :
    decrypt (mkRandomCode lines cw) (encrypt (mkRandomCode lines cw) text)
      = some (normalizeWs text) := by
  obtain ⟨hm1, hm2⟩ := mk_maps lines cw hperm
  have hF : List.Forall₂
      (fun t c => dictGet (mkRandomCode lines cw).map_word_to_code t = some c)
      (pySplit text)
      ((pySplit text).filterMap (dictGet (mkRandomCode lines cw).map_word_to_code)) :=
    filterMap_forall₂ _ (pySplit text) htok
  have hprops := encrypt_code_props lines cw hperm text
  have hsplit :
      pySplit (joinSp ((pySplit text).filterMap
        (dictGet (mkRandomCode lines cw).map_word_to_code)))
      = (pySplit text).filterMap (dictGet (mkRandomCode lines cw).map_word_to_code) :=
    pySplit_joinSp _ hprops
  have h2 : cw.Nodup := (hperm.nodup_iff).mpr (vocabWords_nodup lines)
  have hl : (vocabWordsOf lines).length = cw.length := (hperm.length_eq).symm
  have hG : List.Forall₂
      (fun c t => dictGet (mkRandomCode lines cw).map_code_to_word c = some t)
      ((pySplit text).filterMap (dictGet (mkRandomCode lines cw).map_word_to_code))
      (pySplit text) := by
    refine (List.Forall₂.flip hF).imp ?_
    intro c t h
    rw [hm1] at h
    rw [hm2]
    exact dictGet_zip_inv (vocabWordsOf lines) cw h2 hl t c h
  show (decryptTokens (mkRandomCode lines cw).map_code_to_word
      (pySplit (joinSp ((pySplit text).filterMap
        (dictGet (mkRandomCode lines cw).map_word_to_code))))).map joinSp
    = some (normalizeWs text)
  rw [hsplit, decryptTokens_forall₂ _ _ _ hG]
  rfl

/-- C1 witness: on the corpus `"a b a"` with the swap shuffle, the text
`"a  b"` (double space) round-trips to `"a b"`. -/
theorem claim_C1_witness :
    decrypt (mkRandomCode exLines exCW)
        (encrypt (mkRandomCode exLines exCW) ['a', ' ', ' ', 'b'])
      = some (normalizeWs ['a', ' ', ' ', 'b']) :=
  claim_C1 exLines exCW ['a', ' ', ' ', 'b'] (by decide) (by decide)

/-- C2: after construction from a corpus, the two mappings are exact
inverses restricted to the vocabulary: looking a word up in
`map_word_to_code` succeeds with code `c` exactly when looking `c` up in
`map_code_to_word` gives the word back; the two dictionaries have equal
size and each has no duplicate keys (no word maps to two codes, no code
maps to two words). -/
theorem claim_C2 (lines cw : List Str)
    (hperm : List.Perm cw (vocabWordsOf lines)) :
    (∀ w c, dictGet (mkRandomCode lines cw).map_word_to_code w = some c ↔
        dictGet (mkRandomCode lines cw).map_code_to_word c = some w) ∧
    (mkRandomCode lines cw).map_word_to_code.length
      = (mkRandomCode lines cw).map_code_to_word.length ∧
    ((mkRandomCode lines cw).map_word_to_code.map Prod.fst).Nodup ∧
    ((mkRandomCode lines cw).map_code_to_word.map Prod.fst).Nodup := by
  obtain ⟨hm1, hm2⟩ := mk_maps lines cw hperm
  have h1 := vocabWords_nodup lines
  have h2 : cw.Nodup := (hperm.nodup_iff).mpr h1
  have hl : (vocabWordsOf lines).length = cw.length := (hperm.length_eq).symm
  refine ⟨?_, ?_, ?_, ?_⟩
  · intro w c
    constructor
    · intro h
      rw [hm1] at h
      rw [hm2]
      exact dictGet_zip_inv (vocabWordsOf lines) cw h2 hl w c h
    · intro h
      rw [hm2] at h
      rw [hm1]
      exact dictGet_zip_inv cw (vocabWordsOf lines) h1 hl.symm c w h
  · rw [hm1, hm2, List.length_zip, List.length_zip, Nat.min_comm]
  · rw [hm1, List.map_fst_zip _ _ (le_of_eq hl)]
    exact h1
  · rw [hm2, List.map_fst_zip _ _ (le_of_eq hl.symm)]
    exact h2

/-- C2 witness: on the corpus `"a b a"` with the swap shuffle, the two
mappings have equal size. -/
theorem claim_C2_witness :
    (mkRandomCode exLines exCW).map_word_to_code.length
      = (mkRandomCode exLines exCW).map_code_to_word.length :=
  (claim_C2 exLines exCW (by decide)).2.1

/-- C3 counterexample: the code-assigning shuffle is performed by the
process-global generator, which this program never seeds, so its outcome
is not determined by the vocabulary; for the one-line corpus `"a b"` both
the identity and the swap permutation are admissible shuffle outcomes, and
they produce different `map_word_to_code`. The claim that the assignment
is reproducible from the fixed seed 42 is therefore false: the instance
generator seeded with 42 is never used by the assignment path. -/
theorem claim_C3_counterexample :
    List.Perm [['a'], ['b']] (vocabWordsOf [['a', ' ', 'b']]) ∧
    List.Perm [['b'], ['a']] (vocabWordsOf [['a', ' ', 'b']]) ∧
    (mkRandomCode [['a', ' ', 'b']] [['a'], ['b']]).map_word_to_code ≠
      (mkRandomCode [['a', ' ', 'b']] [['b'], ['a']]).map_word_to_code := by
  decide

/-- C3 (amended): the construction is deterministic given the vocabulary
ordering and the shuffle outcome: two corpora with the same `vocab_words`
and the same shuffled list produce identical `map_word_to_code` and hence
identical `encrypt` output on every input. (Reproducibility across runs
would additionally require the shuffle outcome to be reproducible, which
the unseeded global generator does not guarantee.) -/
theorem claim_C3_amended (l1 l2 cw : List Str) (s : Str)
    (h : vocabWordsOf l1 = vocabWordsOf l2) :
    (mkRandomCode l1 cw).map_word_to_code
      = (mkRandomCode l2 cw).map_word_to_code ∧
    encrypt (mkRandomCode l1 cw) s = encrypt (mkRandomCode l2 cw) s := by
  have hm : (mkRandomCode l1 cw).map_word_to_code
      = (mkRandomCode l2 cw).map_word_to_code := by
    show (buildMaps (vocabWordsOf l1) cw).1 = (buildMaps (vocabWordsOf l2) cw).1
    rw [h]
  refine ⟨hm, ?_⟩
  rw [encrypt, encrypt, hm]

/-- C3 witness: the corpora `["a b"]` and `["a", "b"]` have the same
vocabulary ordering, and with the same shuffle outcome they encrypt
`"a"` identically. -/
theorem claim_C3_witness :
    encrypt (mkRandomCode [['a', ' ', 'b']] [['b'], ['a']]) ['a']
      = encrypt (mkRandomCode [['a'], ['b']] [['b'], ['a']]) ['a'] :=
  (claim_C3_amended [['a', ' ', 'b']] [['a'], ['b']] [['b'], ['a']] ['a']
    (by decide)).2

/-- C4: encrypt splits the text on whitespace and outputs exactly the
codes of the in-vocabulary tokens in their original relative order
(tokenizing the output recovers precisely the filtered code sequence);
out-of-vocabulary tokens are silently dropped, so a text with exactly one
out-of-vocabulary token yields one fewer output token than input
tokens. -/
theorem claim_C4 (lines cw : List Str) (text : Str)
    (hperm : List.Perm cw (vocabWordsOf lines)) :
    pySplit (encrypt (mkRandomCode lines cw) text)
      = (pySplit text).filterMap
          (dictGet (mkRandomCode lines cw).map_word_to_code) ∧
    ((pySplit text).countP
        (fun t => !(dictGet (mkRandomCode lines cw).map_word_to_code t).isSome)
        = 1 →
      (pySplit (encrypt (mkRandomCode lines cw) text)).length + 1
        = (pySplit text).length) := by
  have hsplit :
      pySplit (encrypt (mkRandomCode lines cw) text)
        = (pySplit text).filterMap
            (dictGet (mkRandomCode lines cw).map_word_to_code) :=
    pySplit_joinSp _ (encrypt_code_props lines cw hperm text)
  refine ⟨hsplit, ?_⟩
  intro hone
  rw [hsplit]
  have hlen := length_filterMap_add
    (dictGet (mkRandomCode lines cw).map_word_to_code) (pySplit text)
  omega

/-- C4 witness: on the corpus `"a b a"`, encrypting `"a z b"` (where
`"z"` is out of vocabulary) yields two output tokens for three input
tokens. -/
theorem claim_C4_witness :
    (pySplit (encrypt (mkRandomCode exLines exCW)
        ['a', ' ', 'z', ' ', 'b'])).length + 1
      = (pySplit ['a', ' ', 'z', ' ', 'b']).length :=
  (claim_C4 exLines exCW ['a', ' ', 'z', ' ', 'b'] (by decide)).2 (by decide)

/-- C5: decrypt fails (the `assert` fires, modelled by `none`) exactly
when some whitespace-delimited token of the input is absent from
`map_code_to_word`; it never produces output in that case, and when every
token is present it returns the corresponding words joined by single
spaces. -/
theorem claim_C5 (rc : RandomCode) (s : Str) :
    (decrypt rc s = none ↔
      ∃ t ∈ pySplit s, dictGet rc.map_code_to_word t = none) ∧
    (∀ ws, List.Forall₂ (fun c w => dictGet rc.map_code_to_word c = some w)
        (pySplit s) ws → decrypt rc s = some (joinSp ws)) := by
  constructor
  · constructor
    · intro h
      have hx : decryptTokens rc.map_code_to_word (pySplit s) = none := by
        cases hx : decryptTokens rc.map_code_to_word (pySplit s) with
        | none => rfl
        | some ws =>
          rw [decrypt, hx] at h
          exact Option.noConfusion h
      exact (decryptTokens_none_iff _ _).mp hx
    · intro h
      rw [decrypt, (decryptTokens_none_iff _ _).mpr h]
      rfl
  · intro ws h
    rw [decrypt, decryptTokens_forall₂ _ _ _ h]
    rfl

/-- C5 witness: decrypting the unknown code `"z"` fails with no
output. -/
theorem claim_C5_witness :
    decrypt (mkRandomCode exLines exCW) ['z'] = none :=
  (claim_C5 (mkRandomCode exLines exCW) ['z']).1.mpr (by decide)

/-- C6 counterexample: the claim asserts construction succeeds for every
corpus including one with zero tokens, but on a corpus consisting of a
single empty line the `most_common` list is empty and unpacking
`zip(*[])` raises `ValueError`. -/
theorem claim_C6_counterexample :
    init_from_dataset_reader [[]] [] = Except.error CryptError.valueError :=
  rfl

/-- C6 (amended): for every corpus with at least one token, construction
succeeds without error; the vocabulary size never exceeds
`MAX_VOCAB_SIZE`, and when the number of distinct tokens is at most
`MAX_VOCAB_SIZE` the vocabulary contains exactly all distinct tokens (no
padding). A corpus with zero tokens instead fails with the `ValueError`
raised by unpacking `zip(*[])`. -/
theorem claim_C6 (lines cw : List Str) (hne : iterate_word lines ≠ []) :
    init_from_dataset_reader lines cw = Except.ok (mkRandomCode lines cw) ∧
    (mkRandomCode lines cw).vocab_words.length ≤ MAX_VOCAB_SIZE ∧
    ((countWords (iterate_word lines)).length ≤ MAX_VOCAB_SIZE →
      List.Perm (mkRandomCode lines cw).vocab_words
        ((countWords (iterate_word lines)).map Prod.fst)) := by
  refine ⟨?_, ?_, ?_⟩
  · rw [init_from_dataset_reader, if_neg (vocabPairs_ne_nil lines hne)]
  · show (vocabWordsOf lines).length ≤ MAX_VOCAB_SIZE
    rw [vocabWords_take, List.length_take]
    exact min_le_left _ _
  · intro hle
    show List.Perm (vocabWordsOf lines) _
    rw [vocabWords_take]
    have hlen : ((sortDesc (countWords (iterate_word lines))).map Prod.fst).length
        ≤ MAX_VOCAB_SIZE := by
      rw [List.length_map, (perm_sortDesc _).length_eq]
      exact hle
    rw [List.take_of_length_le hlen]
    exact (perm_sortDesc _).map Prod.fst

/-- C6 witness: on the corpus `"a b a"` construction succeeds. -/
theorem claim_C6_witness :
    init_from_dataset_reader exLines exCW
      = Except.ok (mkRandomCode exLines exCW) :=
  (claim_C6 exLines exCW (by decide)).1

/-- C7: the constructed `vocab_words` sequence is sorted by descending
occurrence count; tokens with equal counts appear in the order they were
first inserted into the frequency table (the word/count pairs with any
fixed count form a subsequence of the insertion-ordered frequency table);
and `vocab_counts` is aligned by index with `vocab_words` (each pair
looks up correctly in the frequency table). -/
theorem claim_C7 (lines cw : List Str) :
    List.Pairwise (fun a b => b ≤ a) (mkRandomCode lines cw).vocab_counts ∧
    (∀ n : Nat,
      List.Sublist
        (((mkRandomCode lines cw).vocab_words.zip
            (mkRandomCode lines cw).vocab_counts).filter (fun p => p.2 == n))
        ((countWords (iterate_word lines)).filter (fun p => p.2 == n))) ∧
    (∀ p ∈ (mkRandomCode lines cw).vocab_words.zip
        (mkRandomCode lines cw).vocab_counts,
      dictGet (countWords (iterate_word lines)) p.1 = some p.2) := by
  have hzip : (mkRandomCode lines cw).vocab_words.zip
      (mkRandomCode lines cw).vocab_counts = vocabPairs lines :=
    zip_map_fst_snd (vocabPairs lines)
  refine ⟨?_, ?_, ?_⟩
  · show List.Pairwise (fun a b => b ≤ a) ((vocabPairs lines).map Prod.snd)
    have hs : List.Pairwise (fun a b => b.2 ≤ a.2) (vocabPairs lines) :=
      List.Pairwise.sublist (List.take_sublist _ _) (sorted_sortDesc _)
    exact List.pairwise_map.mpr hs
  · intro n
    rw [hzip]
    have h1 : List.Sublist ((vocabPairs lines).filter (fun p => p.2 == n))
        ((sortDesc (countWords (iterate_word lines))).filter
          (fun p => p.2 == n)) :=
      (List.take_sublist _ _).filter _
    rw [filter_sortDesc] at h1
    exact h1
  · intro p hp
    rw [hzip, vocabPairs, most_common] at hp
    have hp' : p ∈ sortDesc (countWords (iterate_word lines)) :=
      List.mem_of_mem_take hp
    have hp'' : p ∈ countWords (iterate_word lines) :=
      (perm_sortDesc _).mem_iff.mp hp'
    obtain ⟨a, b⟩ := p
    exact mem_dictGet _ (countWords_keys_nodup _) a b hp''

/-- C7 witness: on the corpus `"a b a"` the counts `[2, 1]` are sorted
descending. -/
theorem claim_C7_witness :
    List.Pairwise (fun a b => b ≤ a) (mkRandomCode exLines exCW).vocab_counts :=
  (claim_C7 exLines exCW).1

/-- C8 counterexample: the claim asserts that supplying both a corpus
source and a pickle path fails at construction time, but with
`use_dataset_reader=True` (the default) supplying both succeeds: the
instance is built from the corpus and then saved — exactly what the
`__main__` driver does. -/
theorem claim_C8_counterexample :
    construct (fun _ => none) true (some [['a']]) (some ['p']) [['a']]
      = Except.ok (mkRandomCode [['a']] [['a']]) :=
  rfl

/-- C8 (amended): the `assert`s in `CryptAlgo.__init__` enforce: in
corpus mode a missing `dataset_reader` fails with `AssertionError`; in
pickle mode a supplied `dataset_reader` or a missing pickle path fails
with `AssertionError` (so supplying neither fails in both modes); no
state is built in any failing case. But supplying both a reader and a
pickle path together with `use_dataset_reader=True` is accepted: the
instance is built from the corpus (and the state is also saved). -/
theorem claim_C8_amended (fs : Str → Option PickleDict) (p : Option Str)
    (cw l : List Str) (d : Option (List Str)) (pth : Str) :
    construct fs true none p cw = Except.error CryptError.assertionError ∧
    construct fs false (some l) p cw = Except.error CryptError.assertionError ∧
    construct fs false d none cw = Except.error CryptError.assertionError ∧
    (iterate_word l ≠ [] →
      construct fs true (some l) (some pth) cw
        = Except.ok (mkRandomCode l cw)) := by
  refine ⟨rfl, ?_, ?_, ?_⟩
  · cases p <;> rfl
  · cases d <;> rfl
  · intro hne
    show init_from_dataset_reader l cw = _
    rw [init_from_dataset_reader, if_neg (vocabPairs_ne_nil l hne)]

/-- C8 witness: building from the corpus `"a b"` while also giving a save
path succeeds. -/
theorem claim_C8_witness :
    construct (fun _ => none) true (some [['a', ' ', 'b']]) (some ['q'])
        [['b'], ['a']]
      = Except.ok (mkRandomCode [['a', ' ', 'b']] [['b'], ['a']]) :=
  (claim_C8_amended (fun _ => none) none [['b'], ['a']] [['a', ' ', 'b']]
    none ['q']).2.2.2 (by decide)

/-- C9: saving an instance and loading the saved dictionary restores all
five persisted fields losslessly, so the loaded instance is equal to the
original and its `encrypt`/`decrypt` outputs agree with the original's on
every input sentence. -/
theorem claim_C9 (rc : RandomCode) (s : Str) :
    init_from_pickle (save_to_pickle rc) = rc ∧
    encrypt (init_from_pickle (save_to_pickle rc)) s = encrypt rc s ∧
    decrypt (init_from_pickle (save_to_pickle rc)) s = decrypt rc s :=
  ⟨rfl, rfl, rfl⟩

/-- C9 witness: the save/load round trip restores the instance built from
the corpus `"a b a"`. -/
theorem claim_C9_witness :
    init_from_pickle (save_to_pickle (mkRandomCode exLines exCW))
      = mkRandomCode exLines exCW :=
  (claim_C9 (mkRandomCode exLines exCW) ['a']).1

/-- C10: when no whitespace-delimited token of the input is in
`map_word_to_code` — in particular for the empty string and
whitespace-only strings, whose token lists are empty — encrypt returns
the empty string; and in general the output of encrypt never starts or
ends with a whitespace character. -/
theorem claim_C10 (lines cw : List Str) (text : Str)
    (hperm : List.Perm cw (vocabWordsOf lines)) :
    ((∀ t ∈ pySplit text,
        dictGet (mkRandomCode lines cw).map_word_to_code t = none) →
      encrypt (mkRandomCode lines cw) text = []) ∧
    (∀ c, (encrypt (mkRandomCode lines cw) text).head? = some c →
      pyIsSpace c = false) ∧
    (∀ c, (encrypt (mkRandomCode lines cw) text).getLast? = some c →
      pyIsSpace c = false) := by
  have hprops := encrypt_code_props lines cw hperm text
  refine ⟨?_, ?_, ?_⟩
  · intro hall
    show joinSp ((pySplit text).filterMap
      (dictGet (mkRandomCode lines cw).map_word_to_code)) = []
    rw [List.filterMap_eq_nil_iff.mpr hall]
    rfl
  · intro c hc
    rcases head?_joinSp _ (fun t ht => (hprops t ht).1) c hc with ⟨t, ht, hct⟩
    exact (hprops t ht).2 c hct
  · intro c hc
    rcases getLast?_joinSp _ (fun t ht => (hprops t ht).1) c hc with ⟨t, ht, hct⟩
    exact (hprops t ht).2 c hct

/-- C10 witness: encrypting the whitespace-only string `"  "` yields the
empty string. -/
theorem claim_C10_witness :
    encrypt (mkRandomCode exLines exCW) [' ', ' '] = [] :=
  (claim_C10 exLines exCW [' ', ' '] (by decide)).1 (by decide)

end BertDecryption
